import Mathlib

/-!
# Verification of the lexical front end of `Cepeppe/programming-language`

The visible source (`src/tokens.py`) defines the `TokenType` enumeration and
the `Token` record. The scanner described by the specification is not part of
the visible source; where a claim is decided by the scanner, it is modelled
from the specification's words (each such definition is marked
`Modelled from the spec:`).
-/

namespace Tokens

/-- The `TokenType` enumeration from `src/tokens.py`, one constructor per
`auto()` member, in source order. -/
inductive TokenType where
  | IDENTIFIER
  | NUMBER
  | STRING
  | BOOL_LITERAL
  | VAR
  | CONST
  | FUNC
  | IF
  | ELSE
  | LOOP
  | IMPORT
  | TRUE
  | FALSE
  | AND
  | OR
  | NOT
  | TYPE_NUMBER
  | TYPE_STRING
  | TYPE_BOOL
  | PLUS
  | MINUS
  | STAR
  | SLASH
  | PERCENT
  | CARET
  | HASH
  | EQUAL_EQUAL
  | BANG_EQUAL
  | LESS
  | LESS_EQUAL
  | GREATER
  | GREATER_EQUAL
  | EQUAL
  | LPAREN
  | RPAREN
  | LBRACE
  | RBRACE
  | COMMA
  | SEMICOLON
  | EOL
  | EOF
  deriving DecidableEq, Repr, Fintype

/-- The discriminant Python's `enum.auto()` assigns to each member:
successive integers starting at 1, in declaration order. -/
def TokenType.discriminant : TokenType → Nat
  | .IDENTIFIER => 1
  | .NUMBER => 2
  | .STRING => 3
  | .BOOL_LITERAL => 4
  | .VAR => 5
  | .CONST => 6
  | .FUNC => 7
  | .IF => 8
  | .ELSE => 9
  | .LOOP => 10
  | .IMPORT => 11
  | .TRUE => 12
  | .FALSE => 13
  | .AND => 14
  | .OR => 15
  | .NOT => 16
  | .TYPE_NUMBER => 17
  | .TYPE_STRING => 18
  | .TYPE_BOOL => 19
  | .PLUS => 20
  | .MINUS => 21
  | .STAR => 22
  | .SLASH => 23
  | .PERCENT => 24
  | .CARET => 25
  | .HASH => 26
  | .EQUAL_EQUAL => 27
  | .BANG_EQUAL => 28
  | .LESS => 29
  | .LESS_EQUAL => 30
  | .GREATER => 31
  | .GREATER_EQUAL => 32
  | .EQUAL => 33
  | .LPAREN => 34
  | .RPAREN => 35
  | .LBRACE => 36
  | .RBRACE => 37
  | .COMMA => 38
  | .SEMICOLON => 39
  | .EOL => 40
  | .EOF => 41

/-- All forty-one members of `TokenType`, in the order and grouping of the
source: Identifier; the literal kinds; the keywords; the type-name keywords;
the operators; the punctuation; and the structural kinds. -/
def allTokenTypes : List TokenType :=
  [.IDENTIFIER,
   .NUMBER, .STRING, .BOOL_LITERAL,
   .VAR, .CONST, .FUNC, .IF, .ELSE, .LOOP, .IMPORT, .TRUE, .FALSE, .AND, .OR, .NOT,
   .TYPE_NUMBER, .TYPE_STRING, .TYPE_BOOL,
   .PLUS, .MINUS, .STAR, .SLASH, .PERCENT, .CARET, .HASH,
   .EQUAL_EQUAL, .BANG_EQUAL, .LESS, .LESS_EQUAL, .GREATER, .GREATER_EQUAL, .EQUAL,
   .LPAREN, .RPAREN, .LBRACE, .RBRACE, .COMMA, .SEMICOLON,
   .EOL, .EOF]

/-- A typed literal payload: the Python value stored in `Token.literal`
(a number, a string, or a boolean). Decimal number literals are represented
exactly as rationals. -/
inductive LitValue where
  | num (q : ℚ)
  | str (s : String)
  | bool (b : Bool)
  deriving DecidableEq, Repr

/-- The `Token` record from `src/tokens.py`: `__init__` stores its six
arguments into the six fields `type`, `value`, `literal`, `line`, `column`,
`file` without validation. `literal` is optional (`None` in Python is
`Option.none` here). -/
structure Token where
  type : TokenType
  value : String
  literal : Option LitValue
  line : Nat
  column : Nat
  file : String
  deriving DecidableEq, Repr

/-- Modelled from the spec: the `LexError` taxonomy of §7 — the scanner
itself is not part of the visible source. Each kind carries the exact
file/line/column. -/
inductive LexError where
  | UnexpectedCharacter (c : Char) (line column : Nat) (file : String)
  | MalformedNumber (text : String) (line column : Nat) (file : String)
  | UnterminatedString (line column : Nat) (file : String)
  | InvalidEscapeSequence (c : Char) (line column : Nat) (file : String)
  deriving DecidableEq, Repr

/-- A piece of the scan: either an emitted token or a chunk of skipped
whitespace (used to state the round-trip property). -/
inductive Piece where
  | tok (t : Token)
  | ws (s : String)
  deriving DecidableEq, Repr

/-- The source characters a piece accounts for. -/
def pieceData : Piece → List Char
  | .tok t => t.value.data
  | .ws s => s.data

/-- Concatenation of the characters accounted for by a list of pieces. -/
def piecesData : List Piece → List Char
  | [] => []
  | p :: ps => pieceData p ++ piecesData ps

/-- The tokens among a list of pieces, in order. -/
def pieceTokens : List Piece → List Token
  | [] => []
  | .tok t :: ps => t :: pieceTokens ps
  | .ws _ :: ps => pieceTokens ps

/-- Modelled from the spec: §4.1.5 identifier start characters (letter or
underscore). -/
def isIdentStart (c : Char) : Bool := c.isAlpha || c = '_'

/-- Modelled from the spec: §4.1.5 identifier continuation characters
(letters, digits, underscores). -/
def isIdentChar (c : Char) : Bool := c.isAlpha || c.isDigit || c = '_'

/-- Modelled from the spec: the fixed, case-sensitive keyword table of
§4.1.5. `true` and `false` map to `BOOL_LITERAL` with a boolean literal
payload rather than to the generic `TRUE`/`FALSE` keyword kinds; `number`,
`string`, `bool` map to the type-name kinds. Every other entry carries no
literal. -/
def keywordTable : List (String × TokenType × Option LitValue) :=
  [("var", .VAR, none),
   ("const", .CONST, none),
   ("func", .FUNC, none),
   ("if", .IF, none),
   ("else", .ELSE, none),
   ("loop", .LOOP, none),
   ("import", .IMPORT, none),
   ("true", .BOOL_LITERAL, some (.bool true)),
   ("false", .BOOL_LITERAL, some (.bool false)),
   ("and", .AND, none),
   ("or", .OR, none),
   ("not", .NOT, none),
   ("number", .TYPE_NUMBER, none),
   ("string", .TYPE_STRING, none),
   ("bool", .TYPE_BOOL, none)]

/-- Modelled from the spec: case-sensitive lookup of a scanned word in the
fixed keyword table; a miss means the word is an identifier. -/
def keywordLookup (s : String) : Option (TokenType × Option LitValue) :=
  (keywordTable.find? (fun kv => kv.1 == s)).map Prod.snd

/-- The numeric value of a digit character. -/
def digitVal (c : Char) : Nat := c.toNat - 48

/-- The natural number denoted by a digit string. -/
def digitsToNat (ds : List Char) : Nat := ds.foldl (fun n c => 10 * n + digitVal c) 0

/-- Modelled from the spec: standard decimal parsing of §4.1.3, integer part
plus fractional part, represented exactly as a rational. -/
def numberValue (intPart fracPart : List Char) : ℚ :=
  (digitsToNat intPart : ℚ) + (digitsToNat fracPart : ℚ) / ((10 : ℚ) ^ fracPart.length)

/-- Modelled from the spec: the fixed minimal escape set of §4.1.4 —
escaped quote, escaped backslash, escaped newline. -/
def escapeChar : Char → Option Char
  | '"' => some '"'
  | '\\' => some '\\'
  | 'n' => some '\n'
  | _ => none

/-- Modelled from the spec: §4.1.4 string scanning after the opening quote.
Returns `(content, raw, rest)`: the unescaped content, the raw consumed
characters (closing quote included), and the unconsumed remainder. A physical
newline or the end of input before the closing quote is an unterminated
string; an unknown escape is an invalid escape sequence. Strings are
single-line, so only the column advances. -/
def scanStringBody (fid : String) (line : Nat) :
    List Char → Nat → Except LexError (List Char × List Char × List Char)
  | [], col => .error (.UnterminatedString line col fid)
  | c :: cs, col =>
    if c = '\n' then .error (.UnterminatedString line col fid)
    else if c = '"' then .ok ([], ['"'], cs)
    else if c = '\\' then
      match cs with
      | [] => .error (.UnterminatedString line (col + 1) fid)
      | e :: rest =>
        match escapeChar e with
        | some ec =>
          match scanStringBody fid line rest (col + 2) with
          | .ok (content, raw, r) => .ok (ec :: content, '\\' :: e :: raw, r)
          | .error err2 => .error err2
        | none => .error (.InvalidEscapeSequence e line col fid)
    else
      match scanStringBody fid line cs (col + 1) with
      | .ok (content, raw, r) => .ok (c :: content, c :: raw, r)
      | .error err2 => .error err2

/-- The one-step result of the scan loop: a piece plus the new cursor state,
the final pieces at end of input, or a lexical error. -/
inductive StepRes where
  | piece (p : Piece) (rest : List Char) (line column : Nat) (last : Option TokenType)
  | fin (ps : List Piece)
  | err (e : LexError)
  deriving Repr

/-- Modelled from the spec: §4.1.6 end-of-input pieces — a final synthetic
`EOL` (empty text) when the last real token was not already a line
terminator, then the synthetic `EOF`; a stream with no tokens at all gets
only `EOF` (consistent with the §4.1.2 rule suppressing `EOL` while the
stream is still empty). -/
def endPieces (line col : Nat) (last : Option TokenType) (fid : String) : List Piece :=
  match last with
  | some k =>
    if k = .EOL then [.tok ⟨.EOF, "", none, line, col, fid⟩]
    else [.tok ⟨.EOL, "", none, line, col, fid⟩, .tok ⟨.EOF, "", none, line, col, fid⟩]
  | none => [.tok ⟨.EOF, "", none, line, col, fid⟩]

/-- Modelled from the spec: §4.1.2 — a whitespace character (space or tab)
other than newline is skipped, producing no token. -/
def wsStep (c : Char) (cs' : List Char) (line col : Nat) (last : Option TokenType) : StepRes :=
  .piece (.ws (String.mk [c])) cs' line (col + 1) last

/-- Modelled from the spec: §4.1.2 — a newline emits `EOL` unless the
immediately preceding emitted token was already `EOL` or the stream is still
empty; the line counter increments and the column resets to 1 either way. -/
def nlStep (fid : String) (cs' : List Char) (line col : Nat) (last : Option TokenType) : StepRes :=
  if last = some .EOL ∨ last = none then
    .piece (.ws (String.mk ['\n'])) cs' (line + 1) 1 last
  else
    .piece (.tok ⟨.EOL, String.mk ['\n'], none, line, col, fid⟩) cs' (line + 1) 1 (some .EOL)

/-- Modelled from the spec: §4.1.3 number scanning — one or more digits, then
optionally a decimal point that must be followed by at least one digit
(otherwise `MalformedNumber`); the literal value is the exact decimal value. -/
def numStep (fid : String) (c : Char) (cs' : List Char) (line col : Nat) : StepRes :=
  match cs'.dropWhile Char.isDigit with
  | '.' :: r2 =>
    if r2.takeWhile Char.isDigit = [] then
      .err (.MalformedNumber (String.mk ((c :: cs'.takeWhile Char.isDigit) ++ ['.'])) line col fid)
    else
      .piece (.tok ⟨.NUMBER,
          String.mk ((c :: cs'.takeWhile Char.isDigit) ++ '.' :: r2.takeWhile Char.isDigit),
          some (.num (numberValue (c :: cs'.takeWhile Char.isDigit) (r2.takeWhile Char.isDigit))),
          line, col, fid⟩)
        (r2.dropWhile Char.isDigit) line
        (col + ((c :: cs'.takeWhile Char.isDigit) ++ '.' :: r2.takeWhile Char.isDigit).length)
        (some .NUMBER)
  | rest1 =>
    .piece (.tok ⟨.NUMBER, String.mk (c :: cs'.takeWhile Char.isDigit),
        some (.num (numberValue (c :: cs'.takeWhile Char.isDigit) [])), line, col, fid⟩)
      rest1 line (col + (c :: cs'.takeWhile Char.isDigit).length) (some .NUMBER)

/-- Modelled from the spec: §4.1.5 identifier/keyword scanning — the maximal
identifier-character run is looked up in the keyword table; a hit emits the
keyword kind (with the boolean literal payload for `true`/`false`), a miss
emits `IDENTIFIER` with no literal. -/
def identStep (fid : String) (c : Char) (cs' : List Char) (line col : Nat) : StepRes :=
  match keywordLookup (String.mk (c :: cs'.takeWhile isIdentChar)) with
  | some (k, lit) =>
    .piece (.tok ⟨k, String.mk (c :: cs'.takeWhile isIdentChar), lit, line, col, fid⟩)
      (cs'.dropWhile isIdentChar) line (col + (c :: cs'.takeWhile isIdentChar).length) (some k)
  | none =>
    .piece (.tok ⟨.IDENTIFIER, String.mk (c :: cs'.takeWhile isIdentChar), none, line, col, fid⟩)
      (cs'.dropWhile isIdentChar) line (col + (c :: cs'.takeWhile isIdentChar).length)
      (some .IDENTIFIER)

/-- Modelled from the spec: §4.1.4 — after an opening quote, the string body
is scanned; the token's text is the raw source including both delimiters,
its literal value the unescaped content. -/
def strStep (fid : String) (cs' : List Char) (line col : Nat) : StepRes :=
  match scanStringBody fid line cs' (col + 1) with
  | .ok (content, raw, r) =>
    .piece (.tok ⟨.STRING, String.mk ('"' :: raw), some (.str (String.mk content)),
        line, col, fid⟩)
      r line (col + 1 + raw.length) (some .STRING)
  | .error e => .err e

/-- The kind of the two-character operator `c=`. -/
def twoCharKind : Char → TokenType
  | '=' => .EQUAL_EQUAL
  | '!' => .BANG_EQUAL
  | '<' => .LESS_EQUAL
  | _ => .GREATER_EQUAL

/-- The kind of a lone `=`, `<` or `>`. -/
def relKind : Char → TokenType
  | '=' => .EQUAL
  | '<' => .LESS
  | _ => .GREATER

/-- Modelled from the spec: the fixed single-character operator and
punctuation table. -/
def singleOps : List (Char × TokenType) :=
  [('+', .PLUS), ('-', .MINUS), ('*', .STAR), ('/', .SLASH), ('%', .PERCENT),
   ('^', .CARET), ('#', .HASH), ('(', .LPAREN), (')', .RPAREN),
   ('\x7b', .LBRACE), ('\x7d', .RBRACE), (',', .COMMA), (';', .SEMICOLON)]

/-- Modelled from the spec: §4.1.2 operator/punctuation scanning — the
longest multi-character operator is matched greedily (`==`, `!=`, `<=`, `>=`
before their one-character prefixes); a lone `!` and any unrecognized
character fail with `UnexpectedCharacter`. -/
def opStep (fid : String) (c : Char) (cs' : List Char) (line col : Nat) : StepRes :=
  if c = '=' ∨ c = '!' ∨ c = '<' ∨ c = '>' then
    match cs' with
    | '=' :: rest =>
      .piece (.tok ⟨twoCharKind c, String.mk [c, '='], none, line, col, fid⟩)
        rest line (col + 2) (some (twoCharKind c))
    | _ =>
      if c = '!' then .err (.UnexpectedCharacter '!' line col fid)
      else
        .piece (.tok ⟨relKind c, String.mk [c], none, line, col, fid⟩)
          cs' line (col + 1) (some (relKind c))
  else
    match singleOps.find? (fun kv => kv.1 == c) with
    | some kv =>
      .piece (.tok ⟨kv.2, String.mk [c], none, line, col, fid⟩) cs' line (col + 1) (some kv.2)
    | none => .err (.UnexpectedCharacter c line col fid)

/-- Modelled from the spec: one iteration of the §4.1.2 scan loop, classifying
the next character. `last` is the kind of the most recently emitted token
(`none` while the stream is empty), used by the `EOL`-collapsing rule. -/
def nextStep (fid : String) (cs : List Char) (line col : Nat) (last : Option TokenType) : StepRes :=
  match cs with
  | [] => .fin (endPieces line col last fid)
  | c :: cs' =>
    if c = ' ' ∨ c = '\t' then wsStep c cs' line col last
    else if c = '\n' then nlStep fid cs' line col last
    else if c.isDigit then numStep fid c cs' line col
    else if isIdentStart c then identStep fid c cs' line col
    else if c = '"' then strStep fid cs' line col
    else opStep fid c cs' line col

/-- Glue a piece onto the front of a scan result. -/
def consPiece (p : Piece) (r : Except LexError (List Piece)) : Except LexError (List Piece) :=
  match r with
  | .ok ps => .ok (p :: ps)
  | .error e => .error e

/-- Modelled from the spec: the §4.1 scan loop, driven by `nextStep`. The
`fuel` argument bounds the number of iterations so the recursion is
structural; every loop iteration consumes at least one character, so
`cs.length + 1` fuel always reaches end of input. Exhausted fuel returns an
error, so an `ok` result always comes from a completed scan. -/
def scanAux (fid : String) : Nat → List Char → Nat → Nat → Option TokenType →
    Except LexError (List Piece)
  | 0, _, _, _, _ => .error (.UnexpectedCharacter ' ' 0 0 fid)
  | fuel + 1, cs, line, col, last =>
    match nextStep fid cs line col last with
    | .fin ps => .ok ps
    | .err e => .error e
    | .piece p rest line2 col2 last2 => consPiece p (scanAux fid fuel rest line2 col2 last2)

/-- Modelled from the spec: the full annotated scan of one file — every piece
(token or skipped whitespace) in consumption order, starting at line 1,
column 1 with an empty stream. -/
def scanPieces (src fid : String) : Except LexError (List Piece) :=
  scanAux fid (src.data.length + 1) src.data 1 1 none

/-- Modelled from the spec: `scan(source_text, file_id)` of §4.1 — the full
ordered token sequence including the trailing `EOF`, or the first `LexError`. -/
def scan (src fid : String) : Except LexError (List Token) :=
  (scanPieces src fid).map pieceTokens

/-- Lexicographic order on `(line, column)` positions. -/
def posLe (p q : Nat × Nat) : Prop := p.1 < q.1 ∨ (p.1 = q.1 ∧ p.2 ≤ q.2)

instance (p q : Nat × Nat) : Decidable (posLe p q) := by
  unfold posLe; infer_instance

/-- Pointwise well-formedness of every token the scanner emits: it carries
the scan's file identifier; its literal payload is present exactly for the
literal kinds; the generic `TRUE`/`FALSE` keyword kinds are never used; the
words `true`/`false` always carry their boolean literal; and only the
synthetic `EOF` has empty text forced. -/
def EmittedWF (fid : String) (t : Token) : Prop :=
  t.file = fid ∧
  (t.literal.isSome ↔ (t.type = .NUMBER ∨ t.type = .STRING ∨ t.type = .BOOL_LITERAL)) ∧
  t.type ≠ .TRUE ∧ t.type ≠ .FALSE ∧
  (t.value = "true" → t.type = .BOOL_LITERAL ∧ t.literal = some (.bool true)) ∧
  (t.value = "false" → t.type = .BOOL_LITERAL ∧ t.literal = some (.bool false)) ∧
  (t.type = .EOF → t.value = "")

end Tokens

deriving instance DecidableEq for Except

namespace Tokens

lemma posLe_refl (p : Nat × Nat) : posLe p p := Or.inr ⟨rfl, le_refl _⟩

lemma posLe_trans {p q r : Nat × Nat} (h1 : posLe p q) (h2 : posLe q r) : posLe p r := by
  rcases h1 with h1 | ⟨h1a, h1b⟩ <;> rcases h2 with h2 | ⟨h2a, h2b⟩ <;>
    [exact Or.inl (h1.trans h2); exact Or.inl (h2a ▸ h1);
     exact Or.inl (h1a ▸ h2); exact Or.inr ⟨h1a.trans h2a, h1b.trans h2b⟩]

lemma consPiece_ok {p : Piece} {r : Except LexError (List Piece)} {qs : List Piece}
    (h : consPiece p r = .ok qs) : ∃ ps, r = .ok ps ∧ qs = p :: ps := by
  cases r with
  | ok ps => exact ⟨ps, rfl, by cases h; rfl⟩
  | error e => exact Except.noConfusion h

lemma mk_cons_ne_true_false {c : Char} {xs : List Char} (ht : c ≠ 't') (hf : c ≠ 'f') :
    String.mk (c :: xs) ≠ "true" ∧ String.mk (c :: xs) ≠ "false" := by
  constructor <;> intro h
  · have h3 : c :: xs = ("true" : String).data := congrArg String.data h
    have h4 : ("true" : String).data = ['t', 'r', 'u', 'e'] := rfl
    have h5 := h3.trans h4
    simp only [List.cons.injEq] at h5
    exact ht h5.1
  · have h3 : c :: xs = ("false" : String).data := congrArg String.data h
    have h4 : ("false" : String).data = ['f', 'a', 'l', 's', 'e'] := rfl
    have h5 := h3.trans h4
    simp only [List.cons.injEq] at h5
    exact hf h5.1

lemma scanStringBody_append (fid : String) (line : Nat) :
    ∀ n cs, cs.length ≤ n → ∀ col content raw r,
      scanStringBody fid line cs col = .ok (content, raw, r) → raw ++ r = cs := by
  intro n
  induction n with
  | zero =>
    intro cs hlen col content raw r h
    rw [List.length_eq_zero.mp (Nat.le_zero.mp hlen)] at h ⊢
    exact Except.noConfusion h
  | succ n ih =>
    intro cs hlen col content raw r h
    cases cs with
    | nil => exact Except.noConfusion h
    | cons c cs' =>
      rw [scanStringBody.eq_def] at h
      simp only [] at h
      split at h
      · exact Except.noConfusion h
      · split at h
        · rename_i hq
          simp only [Except.ok.injEq, Prod.mk.injEq] at h
          obtain ⟨-, rfl, rfl⟩ := h
          rw [hq]; rfl
        · split at h
          · rename_i hb
            split at h
            · exact Except.noConfusion h
            · rename_i e restl
              split at h
              · rename_i ec hec
                split at h
                · rename_i content0 raw0 r0 hrec
                  simp only [Except.ok.injEq, Prod.mk.injEq] at h
                  obtain ⟨-, rfl, rfl⟩ := h
                  have hr := ih restl (by simp at hlen; omega) _ _ _ _ hrec
                  rw [hb]
                  simp [hr]
                · exact Except.noConfusion h
              · exact Except.noConfusion h
          · split at h
            · rename_i content0 raw0 r0 hrec
              simp only [Except.ok.injEq, Prod.mk.injEq] at h
              obtain ⟨-, rfl, rfl⟩ := h
              have hr := ih cs' (by simp at hlen; omega) _ _ _ _ hrec
              simp [hr]
            · exact Except.noConfusion h

lemma keywordLookup_spec {s : String} {k : TokenType} {lit : Option LitValue}
    (h : keywordLookup s = some (k, lit)) :
    k ≠ .TRUE ∧ k ≠ .FALSE ∧ k ≠ .EOF ∧
    (lit.isSome ↔ (k = .NUMBER ∨ k = .STRING ∨ k = .BOOL_LITERAL)) ∧
    (s = "true" → k = .BOOL_LITERAL ∧ lit = some (.bool true)) ∧
    (s = "false" → k = .BOOL_LITERAL ∧ lit = some (.bool false)) := by
  unfold keywordLookup at h
  obtain ⟨kv, hfind, hsnd⟩ :
      ∃ kv, keywordTable.find? (fun kv => kv.1 == s) = some kv ∧ kv.2 = (k, lit) := by
    cases hf : keywordTable.find? (fun kv => kv.1 == s) with
    | none => rw [hf] at h; exact Option.noConfusion h
    | some kv =>
      rw [hf] at h
      simp only [Option.map_some', Option.some.injEq] at h
      exact ⟨kv, rfl, h⟩
  have hmem := List.mem_of_find?_eq_some hfind
  have hpred := List.find?_some hfind
  have hk : kv.2.1 = k := by rw [hsnd]
  have hlit : kv.2.2 = lit := by rw [hsnd]
  have hs : s = kv.1 := by
    have hb : (kv.1 == s) = true := by simpa using hpred
    exact (eq_of_beq hb).symm
  subst hk
  subst hlit
  subst hs
  have H : ∀ kv ∈ keywordTable,
      kv.2.1 ≠ TokenType.TRUE ∧ kv.2.1 ≠ TokenType.FALSE ∧ kv.2.1 ≠ TokenType.EOF ∧
      (kv.2.2.isSome ↔ (kv.2.1 = .NUMBER ∨ kv.2.1 = .STRING ∨ kv.2.1 = .BOOL_LITERAL)) ∧
      (kv.1 = "true" → kv.2.1 = .BOOL_LITERAL ∧ kv.2.2 = some (.bool true)) ∧
      (kv.1 = "false" → kv.2.1 = .BOOL_LITERAL ∧ kv.2.2 = some (.bool false)) := by decide
  exact H kv hmem

lemma keywordLookup_none {s : String} (h : keywordLookup s = none) :
    s ≠ "true" ∧ s ≠ "false" := by
  unfold keywordLookup at h
  have hf : keywordTable.find? (fun kv => kv.1 == s) = none := by
    cases hf : keywordTable.find? (fun kv => kv.1 == s) with
    | none => rfl
    | some kv => rw [hf] at h; exact Option.noConfusion h
  rw [List.find?_eq_none] at hf
  constructor <;> intro heq
  · exact hf ("true", .BOOL_LITERAL, some (.bool true)) (by decide) (by simp [heq])
  · exact hf ("false", .BOOL_LITERAL, some (.bool false)) (by decide) (by simp [heq])

/-- The invariant one scan-loop step preserves: the consumed characters are
accounted for, the cursor moves forward, 1-based positions stay 1-based, and
every emitted token sits at the step's start position and is well-formed. -/
def StepOk (fid : String) (cs : List Char) (line col : Nat) (last : Option TokenType) :
    StepRes → Prop
  | .piece p rest line2 col2 _ =>
      pieceData p ++ rest = cs ∧
      posLe (line, col) (line2, col2) ∧
      (1 ≤ line → 1 ≤ col → 1 ≤ line2 ∧ 1 ≤ col2) ∧
      ∀ t, p = .tok t → t.line = line ∧ t.column = col ∧ t.type ≠ .EOF ∧ EmittedWF fid t
  | .fin ps => cs = [] ∧ ps = endPieces line col last fid
  | .err _ => True

lemma wsStep_ok (fid : String) (c : Char) (cs' : List Char) (line col : Nat)
    (last : Option TokenType) :
    StepOk fid (c :: cs') line col last (wsStep c cs' line col last) :=
  ⟨rfl, Or.inr ⟨rfl, Nat.le_succ _⟩, fun h1 h2 => ⟨h1, by omega⟩,
   fun t ht => Piece.noConfusion ht⟩

lemma emittedWF_simple (fid : String) (k : TokenType) (c : Char) (xs : List Char)
    (line col : Nat)
    (hk1 : k ≠ .TRUE) (hk2 : k ≠ .FALSE) (hk3 : k ≠ .EOF)
    (hk4 : k ≠ .NUMBER) (hk5 : k ≠ .STRING) (hk6 : k ≠ .BOOL_LITERAL)
    (hc1 : c ≠ 't') (hc2 : c ≠ 'f') :
    (⟨k, String.mk (c :: xs), none, line, col, fid⟩ : Token).line = line ∧
    (⟨k, String.mk (c :: xs), none, line, col, fid⟩ : Token).column = col ∧
    (⟨k, String.mk (c :: xs), none, line, col, fid⟩ : Token).type ≠ .EOF ∧
    EmittedWF fid ⟨k, String.mk (c :: xs), none, line, col, fid⟩ := by
  refine ⟨rfl, rfl, hk3, rfl, by simp [hk4, hk5, hk6], hk1, hk2, ?_, ?_, fun h => absurd h hk3⟩
  · exact fun h => absurd h (mk_cons_ne_true_false hc1 hc2).1
  · exact fun h => absurd h (mk_cons_ne_true_false hc1 hc2).2

lemma nlStep_ok (fid : String) (c : Char) (cs' : List Char) (line col : Nat)
    (last : Option TokenType) (hc : c = '\n') :
    StepOk fid (c :: cs') line col last (nlStep fid cs' line col last) := by
  subst hc
  unfold nlStep
  split
  · exact ⟨rfl, Or.inl (Nat.lt_succ_self _), fun h1 h2 => ⟨by omega, le_refl 1⟩,
      fun t ht => Piece.noConfusion ht⟩
  · refine ⟨rfl, Or.inl (Nat.lt_succ_self _), fun h1 h2 => ⟨by omega, le_refl 1⟩, ?_⟩
    intro t ht
    cases ht
    exact emittedWF_simple fid .EOL '\n' [] line col (by decide) (by decide) (by decide)
      (by decide) (by decide) (by decide) (by decide) (by decide)

lemma numStep_ok (fid : String) (c : Char) (cs' : List Char) (line col : Nat)
    (last : Option TokenType) (hd : c.isDigit = true) :
    StepOk fid (c :: cs') line col last (numStep fid c cs' line col) := by
  have hct : c ≠ 't' := fun h => by rw [h] at hd; exact absurd hd (by decide)
  have hcf : c ≠ 'f' := fun h => by rw [h] at hd; exact absurd hd (by decide)
  have h1 : cs'.takeWhile Char.isDigit ++ cs'.dropWhile Char.isDigit = cs' :=
    List.takeWhile_append_dropWhile Char.isDigit cs'
  unfold numStep
  split
  case _ r2 heq =>
    split
    · trivial
    · refine ⟨?_, Or.inr ⟨rfl, by omega⟩, fun ha hb => ⟨ha, by omega⟩, ?_⟩
      · have h2 : r2.takeWhile Char.isDigit ++ r2.dropWhile Char.isDigit = r2 :=
          List.takeWhile_append_dropWhile Char.isDigit r2
        show ((c :: cs'.takeWhile Char.isDigit) ++ '.' :: r2.takeWhile Char.isDigit) ++
            r2.dropWhile Char.isDigit = c :: cs'
        simp only [List.cons_append, List.append_assoc]
        rw [h2, ← heq, h1]
      · intro t ht
        cases ht
        refine ⟨rfl, rfl, fun h => TokenType.noConfusion h, rfl, by simp,
          fun h => TokenType.noConfusion h, fun h => TokenType.noConfusion h, ?_, ?_,
          fun h => TokenType.noConfusion h⟩
        · exact fun h => absurd h (mk_cons_ne_true_false hct hcf).1
        · exact fun h => absurd h (mk_cons_ne_true_false hct hcf).2
  case _ rest1 heq =>
    refine ⟨?_, Or.inr ⟨rfl, by omega⟩, fun ha hb => ⟨ha, by omega⟩, ?_⟩
    · show (c :: cs'.takeWhile Char.isDigit) ++ cs'.dropWhile Char.isDigit = c :: cs'
      rw [List.cons_append, h1]
    · intro t ht
      cases ht
      refine ⟨rfl, rfl, fun h => TokenType.noConfusion h, rfl, by simp,
        fun h => TokenType.noConfusion h, fun h => TokenType.noConfusion h, ?_, ?_,
        fun h => TokenType.noConfusion h⟩
      · exact fun h => absurd h (mk_cons_ne_true_false hct hcf).1
      · exact fun h => absurd h (mk_cons_ne_true_false hct hcf).2

lemma identStep_ok (fid : String) (c : Char) (cs' : List Char) (line col : Nat)
    (last : Option TokenType) :
    StepOk fid (c :: cs') line col last (identStep fid c cs' line col) := by
  have h1 : cs'.takeWhile isIdentChar ++ cs'.dropWhile isIdentChar = cs' :=
    List.takeWhile_append_dropWhile isIdentChar cs'
  unfold identStep
  split
  case _ k lit hk =>
    obtain ⟨sT, sF, sE, sIff, sTrue, sFalse⟩ := keywordLookup_spec hk
    refine ⟨?_, Or.inr ⟨rfl, by omega⟩, fun ha hb => ⟨ha, by omega⟩, ?_⟩
    · show (c :: cs'.takeWhile isIdentChar) ++ cs'.dropWhile isIdentChar = c :: cs'
      rw [List.cons_append, h1]
    · intro t ht
      cases ht
      exact ⟨rfl, rfl, sE, rfl, sIff, sT, sF, sTrue, sFalse, fun h => absurd h sE⟩
  case _ hk =>
    obtain ⟨nT, nF⟩ := keywordLookup_none hk
    refine ⟨?_, Or.inr ⟨rfl, by omega⟩, fun ha hb => ⟨ha, by omega⟩, ?_⟩
    · show (c :: cs'.takeWhile isIdentChar) ++ cs'.dropWhile isIdentChar = c :: cs'
      rw [List.cons_append, h1]
    · intro t ht
      cases ht
      refine ⟨rfl, rfl, fun h => TokenType.noConfusion h, rfl, by simp,
        fun h => TokenType.noConfusion h, fun h => TokenType.noConfusion h,
        fun h => absurd h nT, fun h => absurd h nF, fun h => TokenType.noConfusion h⟩

lemma strStep_ok (fid : String) (cs' : List Char) (line col : Nat)
    (last : Option TokenType) :
    StepOk fid ('"' :: cs') line col last (strStep fid cs' line col) := by
  unfold strStep
  split
  case _ content raw r hs =>
    have hr := scanStringBody_append fid line cs'.length cs' (le_refl _) _ _ _ _ hs
    refine ⟨?_, Or.inr ⟨rfl, by omega⟩, fun ha hb => ⟨ha, by omega⟩, ?_⟩
    · show ('"' :: raw) ++ r = '"' :: cs'
      rw [List.cons_append, hr]
    · intro t ht
      cases ht
      refine ⟨rfl, rfl, fun h => TokenType.noConfusion h, rfl, by simp,
        fun h => TokenType.noConfusion h, fun h => TokenType.noConfusion h, ?_, ?_,
        fun h => TokenType.noConfusion h⟩
      · exact fun h => absurd h (mk_cons_ne_true_false (by decide) (by decide)).1
      · exact fun h => absurd h (mk_cons_ne_true_false (by decide) (by decide)).2
  case _ => trivial

lemma opStep_ok (fid : String) (c : Char) (cs' : List Char) (line col : Nat)
    (last : Option TokenType) :
    StepOk fid (c :: cs') line col last (opStep fid c cs' line col) := by
  unfold opStep
  split
  case _ h4 =>
    split
    case _ rest =>
      refine ⟨rfl, Or.inr ⟨rfl, by omega⟩, fun ha hb => ⟨ha, by omega⟩, ?_⟩
      intro t ht
      cases ht
      rcases h4 with rfl | rfl | rfl | rfl <;>
        exact emittedWF_simple fid _ _ ['='] line col (by decide) (by decide) (by decide)
          (by decide) (by decide) (by decide) (by decide) (by decide)
    case _ =>
      split
      · trivial
      case _ h5 =>
        refine ⟨rfl, Or.inr ⟨rfl, by omega⟩, fun ha hb => ⟨ha, by omega⟩, ?_⟩
        intro t ht
        cases ht
        rcases h4 with rfl | rfl | rfl | rfl <;>
          first
          | exact absurd rfl h5
          | exact emittedWF_simple fid _ _ [] line col (by decide) (by decide) (by decide)
              (by decide) (by decide) (by decide) (by decide) (by decide)
  case _ h4 =>
    split
    case _ kv hf =>
      have hmem := List.mem_of_find?_eq_some hf
      have hb : (kv.1 == c) = true := @List.find?_some _ (fun kv => kv.1 == c) kv singleOps hf
      have hc : kv.1 = c := eq_of_beq hb
      have H : ∀ kv ∈ singleOps, kv.1 ≠ 't' ∧ kv.1 ≠ 'f' ∧ kv.2 ≠ TokenType.TRUE ∧
          kv.2 ≠ TokenType.FALSE ∧ kv.2 ≠ TokenType.EOF ∧ kv.2 ≠ TokenType.NUMBER ∧
          kv.2 ≠ TokenType.STRING ∧ kv.2 ≠ TokenType.BOOL_LITERAL := by decide
      obtain ⟨p1, p2, p3, p4, p5, p6, p7, p8⟩ := H kv hmem
      subst hc
      refine ⟨rfl, Or.inr ⟨rfl, by omega⟩, fun ha hb => ⟨ha, by omega⟩, ?_⟩
      intro t ht
      cases ht
      exact emittedWF_simple fid kv.2 kv.1 [] line col p3 p4 p5 p6 p7 p8 p1 p2
    case _ => trivial

lemma eofTok_wf (fid : String) (line col : Nat) :
    EmittedWF fid ⟨.EOF, "", none, line, col, fid⟩ := by
  have h1 : ("" : String) ≠ "true" := by decide
  have h2 : ("" : String) ≠ "false" := by decide
  exact ⟨rfl, by simp, fun h => TokenType.noConfusion h, fun h => TokenType.noConfusion h,
    fun h => absurd h h1, fun h => absurd h h2, fun h => rfl⟩

lemma eolSynth_wf (fid : String) (line col : Nat) :
    EmittedWF fid ⟨.EOL, "", none, line, col, fid⟩ := by
  have h1 : ("" : String) ≠ "true" := by decide
  have h2 : ("" : String) ≠ "false" := by decide
  exact ⟨rfl, by simp, fun h => TokenType.noConfusion h, fun h => TokenType.noConfusion h,
    fun h => absurd h h1, fun h => absurd h h2, fun h => TokenType.noConfusion h⟩

lemma endPieces_ok (line col : Nat) (last : Option TokenType) (fid : String) :
    piecesData (endPieces line col last fid) = [] ∧
    (∀ t ∈ pieceTokens (endPieces line col last fid),
        t.line = line ∧ t.column = col ∧ EmittedWF fid t) ∧
    List.Chain' (fun a b => posLe (a.line, a.column) (b.line, b.column))
      (pieceTokens (endPieces line col last fid)) ∧
    ∃ ts lastTok, pieceTokens (endPieces line col last fid) = ts ++ [lastTok] ∧
      lastTok.type = .EOF ∧ lastTok.value = "" ∧ ∀ t ∈ ts, t.type ≠ .EOF := by
  have heof := eofTok_wf fid line col
  have heol := eolSynth_wf fid line col
  cases last with
  | none =>
    refine ⟨rfl, ?_, ?_, [], ⟨.EOF, "", none, line, col, fid⟩, rfl, rfl, rfl, by simp⟩
    · intro t ht
      have he : t = ⟨.EOF, "", none, line, col, fid⟩ := by
        simpa [endPieces, pieceTokens] using ht
      subst he
      exact ⟨rfl, rfl, heof⟩
    · exact List.chain'_singleton _
  | some k =>
    have hred : endPieces line col (some k) fid =
        if k = TokenType.EOL then [Piece.tok ⟨.EOF, "", none, line, col, fid⟩]
        else [Piece.tok ⟨.EOL, "", none, line, col, fid⟩,
              Piece.tok ⟨.EOF, "", none, line, col, fid⟩] := rfl
    rw [hred]
    by_cases hk : k = TokenType.EOL
    · rw [if_pos hk]
      refine ⟨rfl, ?_, ?_, [], ⟨.EOF, "", none, line, col, fid⟩, rfl, rfl, rfl, by simp⟩
      · intro t ht
        have he : t = ⟨.EOF, "", none, line, col, fid⟩ := by
          simpa [pieceTokens] using ht
        subst he
        exact ⟨rfl, rfl, heof⟩
      · exact List.chain'_singleton _
    · rw [if_neg hk]
      refine ⟨rfl, ?_, ?_,
        [⟨.EOL, "", none, line, col, fid⟩], ⟨.EOF, "", none, line, col, fid⟩, rfl, rfl, rfl, ?_⟩
      · intro t ht
        have he : t = ⟨.EOL, "", none, line, col, fid⟩ ∨ t = ⟨.EOF, "", none, line, col, fid⟩ := by
          simpa [pieceTokens] using ht
        rcases he with rfl | rfl
        · exact ⟨rfl, rfl, heol⟩
        · exact ⟨rfl, rfl, heof⟩
      · show List.Chain' (fun a b => posLe (a.line, a.column) (b.line, b.column))
          [(⟨.EOL, "", none, line, col, fid⟩ : Token), ⟨.EOF, "", none, line, col, fid⟩]
        rw [List.chain'_cons']
        refine ⟨?_, List.chain'_singleton _⟩
        intro y hy
        have hyy : (⟨.EOF, "", none, line, col, fid⟩ : Token) = y := by simpa using hy
        subst hyy
        exact posLe_refl _
      · intro t ht
        have he : t = ⟨.EOL, "", none, line, col, fid⟩ := by simpa using ht
        subst he
        exact fun h => TokenType.noConfusion h

lemma nextStep_ok (fid : String) (cs : List Char) (line col : Nat) (last : Option TokenType) :
    StepOk fid cs line col last (nextStep fid cs line col last) := by
  cases cs with
  | nil => exact ⟨rfl, rfl⟩
  | cons c cs' =>
    show StepOk fid (c :: cs') line col last
      (if c = ' ' ∨ c = '\t' then wsStep c cs' line col last
       else if c = '\n' then nlStep fid cs' line col last
       else if c.isDigit then numStep fid c cs' line col
       else if isIdentStart c then identStep fid c cs' line col
       else if c = '"' then strStep fid cs' line col
       else opStep fid c cs' line col)
    by_cases h1 : c = ' ' ∨ c = '\t'
    · rw [if_pos h1]; exact wsStep_ok fid c cs' line col last
    · rw [if_neg h1]
      by_cases h2 : c = '\n'
      · rw [if_pos h2]; exact nlStep_ok fid c cs' line col last h2
      · rw [if_neg h2]
        by_cases h3 : c.isDigit = true
        · rw [if_pos h3]; exact numStep_ok fid c cs' line col last h3
        · rw [if_neg h3]
          by_cases h4 : isIdentStart c = true
          · rw [if_pos h4]; exact identStep_ok fid c cs' line col last
          · rw [if_neg h4]
            by_cases h5 : c = '"'
            · rw [if_pos h5]; subst h5; exact strStep_ok fid cs' line col last
            · rw [if_neg h5]; exact opStep_ok fid c cs' line col last

lemma scanAux_spec (fid : String) :
    ∀ fuel cs line col last ps, scanAux fid fuel cs line col last = .ok ps →
      piecesData ps = cs ∧
      (∀ t ∈ pieceTokens ps, posLe (line, col) (t.line, t.column)) ∧
      List.Chain' (fun a b => posLe (a.line, a.column) (b.line, b.column)) (pieceTokens ps) ∧
      (1 ≤ line → 1 ≤ col → ∀ t ∈ pieceTokens ps, 1 ≤ t.line ∧ 1 ≤ t.column) ∧
      (∀ t ∈ pieceTokens ps, EmittedWF fid t) ∧
      ∃ ts lastTok, pieceTokens ps = ts ++ [lastTok] ∧ lastTok.type = .EOF ∧
        lastTok.value = "" ∧ ∀ t ∈ ts, t.type ≠ .EOF := by
  intro fuel
  induction fuel with
  | zero => intro cs line col last ps h; exact Except.noConfusion h
  | succ fuel ih =>
    intro cs line col last ps h
    rw [scanAux] at h
    have hok := nextStep_ok fid cs line col last
    split at h
    case _ fps heq =>
      rw [heq] at hok
      obtain ⟨hcs, hps⟩ := hok
      cases h
      subst hcs
      subst hps
      obtain ⟨e1, e2, e3, e4⟩ := endPieces_ok line col last fid
      refine ⟨e1, ?_, e3, ?_, ?_, e4⟩
      · intro t ht
        obtain ⟨hl, hc2, _⟩ := e2 t ht
        rw [hl, hc2]
        exact posLe_refl _
      · intro ha hb t ht
        obtain ⟨hl, hc2, _⟩ := e2 t ht
        rw [hl, hc2]
        exact ⟨ha, hb⟩
      · intro t ht
        exact (e2 t ht).2.2
    case _ e heq => exact Except.noConfusion h
    case _ p rest line2 col2 last2 heq =>
      rw [heq] at hok
      obtain ⟨hdata, hpos, hone, htok⟩ := hok
      obtain ⟨ps', hrec, rfl⟩ := consPiece_ok h
      obtain ⟨i1, i2, i3, i4, i5, i6⟩ := ih rest line2 col2 last2 ps' hrec
      cases p with
      | ws s =>
        refine ⟨?_, ?_, i3, ?_, i5, i6⟩
        · show pieceData (.ws s) ++ piecesData ps' = cs
          rw [i1]
          exact hdata
        · intro t ht
          exact posLe_trans hpos (i2 t ht)
        · intro ha hb
          obtain ⟨hl2, hc2⟩ := hone ha hb
          exact i4 hl2 hc2
      | tok t0 =>
        obtain ⟨hline, hcol, hEOF, hwf⟩ := htok t0 rfl
        have hred : pieceTokens (.tok t0 :: ps') = t0 :: pieceTokens ps' := rfl
        refine ⟨?_, ?_, ?_, ?_, ?_, ?_⟩
        · show pieceData (.tok t0) ++ piecesData ps' = cs
          rw [i1]
          exact hdata
        · intro t ht
          rw [hred] at ht
          rcases List.mem_cons.mp ht with rfl | hmem
          · rw [hline, hcol]
            exact posLe_refl _
          · exact posLe_trans hpos (i2 t hmem)
        · rw [hred, List.chain'_cons']
          refine ⟨?_, i3⟩
          intro y hy
          have hymem : y ∈ pieceTokens ps' := List.mem_of_mem_head? hy
          rw [hline, hcol]
          exact posLe_trans hpos (i2 y hymem)
        · intro ha hb t ht
          obtain ⟨hl2, hc2⟩ := hone ha hb
          rw [hred] at ht
          rcases List.mem_cons.mp ht with rfl | hmem
          · rw [hline, hcol]
            exact ⟨ha, hb⟩
          · exact i4 hl2 hc2 t hmem
        · intro t ht
          rw [hred] at ht
          rcases List.mem_cons.mp ht with rfl | hmem
          · exact hwf
          · exact i5 t hmem
        · obtain ⟨ts, lastTok, hshape, hE, hV, hno⟩ := i6
          refine ⟨t0 :: ts, lastTok, ?_, hE, hV, ?_⟩
          · rw [hred, hshape]
            rfl
          · intro t ht
            rcases List.mem_cons.mp ht with rfl | hmem
            · exact hEOF
            · exact hno t hmem

lemma scan_spec {src fid : String} {toks : List Token} (h : scan src fid = .ok toks) :
    ∃ ps, scanPieces src fid = .ok ps ∧ toks = pieceTokens ps := by
  unfold scan at h
  cases hp : scanPieces src fid with
  | ok ps =>
    rw [hp] at h
    cases h
    exact ⟨ps, rfl, rfl⟩
  | error e =>
    rw [hp] at h
    exact Except.noConfusion h

/-- The round-trip reconstruction of §8: the text of every token except the
synthetic `EOF`, together with every skipped whitespace chunk, in consumption
order. -/
def reconstruct : List Piece → String
  | [] => ""
  | .tok t :: ps => (if t.type = .EOF then "" else t.value) ++ reconstruct ps
  | .ws s :: ps => s ++ reconstruct ps

lemma reconstruct_data (ps : List Piece)
    (hwf : ∀ t ∈ pieceTokens ps, t.type = .EOF → t.value = "") :
    (reconstruct ps).data = piecesData ps := by
  induction ps with
  | nil => rfl
  | cons p ps ih =>
    cases p with
    | tok t =>
      have ht := hwf t (List.mem_cons_self t _)
      have htail : ∀ t2 ∈ pieceTokens ps, t2.type = .EOF → t2.value = "" :=
        fun t2 h2 => hwf t2 (List.mem_cons_of_mem _ h2)
      show ((if t.type = .EOF then "" else t.value) ++ reconstruct ps).data =
        t.value.data ++ piecesData ps
      rw [String.data_append, ih htail]
      by_cases he : t.type = .EOF
      · rw [if_pos he, ht he]
      · rw [if_neg he]
    | ws s =>
      show (s ++ reconstruct ps).data = s.data ++ piecesData ps
      rw [String.data_append, ih (fun t2 h2 => hwf t2 h2)]

/-- Claim C1: for every token the scan produces, the `literal` payload is
present if and only if the token's kind is `NUMBER`, `STRING` or
`BOOL_LITERAL`; for every other kind it is absent, so presence of the
payload is fully determined by the kind. -/
theorem claim1_literal_iff_kind (src fid : String) (toks : List Token)
    (h : scan src fid = .ok toks) :
    ∀ t ∈ toks, t.literal.isSome ↔
      (t.type = .NUMBER ∨ t.type = .STRING ∨ t.type = .BOOL_LITERAL) := by
  obtain ⟨ps, hps, rfl⟩ := scan_spec h
  have spec := (scanAux_spec fid _ _ _ _ _ _ hps).2.2.2.2.1
  exact fun t ht => (spec t ht).2.1

/-- Witness for C1 at the identifier token of the scan of `"x"`. -/
theorem claim1_witness :
    (⟨.IDENTIFIER, "x", none, 1, 1, "f"⟩ : Token).literal.isSome ↔
      ((⟨.IDENTIFIER, "x", none, 1, 1, "f"⟩ : Token).type = .NUMBER ∨
       (⟨.IDENTIFIER, "x", none, 1, 1, "f"⟩ : Token).type = .STRING ∨
       (⟨.IDENTIFIER, "x", none, 1, 1, "f"⟩ : Token).type = .BOOL_LITERAL) :=
  claim1_literal_iff_kind "x" "f"
    [⟨.IDENTIFIER, "x", none, 1, 1, "f"⟩, ⟨.EOL, "", none, 1, 2, "f"⟩,
     ⟨.EOF, "", none, 1, 2, "f"⟩]
    (by decide) _ (by decide)

/-- Claim C2: `TokenType` is a closed, exhaustive enumeration consisting
exactly of the forty-one listed kinds, in source order, and no two kinds
share an `auto()` discriminant. -/
theorem claim2_tokentype_closed_enumeration :
    (∀ t : TokenType, t ∈ allTokenTypes) ∧
    allTokenTypes.Nodup ∧
    ∀ a b : TokenType, a.discriminant = b.discriminant → a = b := by
  refine ⟨?_, by decide, ?_⟩
  · intro t
    cases t <;> decide
  · decide

/-- Witness for C2 at the concrete kind `HASH`. -/
theorem claim2_witness :
    TokenType.HASH ∈ allTokenTypes ∧ TokenType.HASH = TokenType.HASH :=
  ⟨claim2_tokentype_closed_enumeration.1 .HASH,
   claim2_tokentype_closed_enumeration.2.2 .HASH .HASH rfl⟩

/-- Claim C4: a `Token` carries exactly six pieces of data — kind, text,
optional literal, 1-based line and column, and a source-file identifier:
every token is determined by its six fields, and every scanned token, the
synthetic trailing `EOF` included, carries the scan's file identifier and a
1-based position. -/
theorem claim4_token_six_fields :
    (∀ t : Token, t = ⟨t.type, t.value, t.literal, t.line, t.column, t.file⟩) ∧
    (∀ src fid toks, scan src fid = .ok toks →
      ∀ t ∈ toks, t.file = fid ∧ 1 ≤ t.line ∧ 1 ≤ t.column) := by
  constructor
  · intro t
    rfl
  · intro src fid toks h t ht
    obtain ⟨ps, hps, rfl⟩ := scan_spec h
    have spec := scanAux_spec fid _ _ _ _ _ _ hps
    have h14 := spec.2.2.2.1 (le_refl 1) (le_refl 1) t ht
    exact ⟨(spec.2.2.2.2.1 t ht).1, h14.1, h14.2⟩

/-- Witness for C4 at the synthetic `EOF` token of the scan of `"x"`. -/
theorem claim4_witness :
    (⟨.EOF, "", none, 1, 2, "f"⟩ : Token).file = "f" ∧
    1 ≤ (⟨.EOF, "", none, 1, 2, "f"⟩ : Token).line ∧
    1 ≤ (⟨.EOF, "", none, 1, 2, "f"⟩ : Token).column :=
  claim4_token_six_fields.2 "x" "f"
    [⟨.IDENTIFIER, "x", none, 1, 1, "f"⟩, ⟨.EOL, "", none, 1, 2, "f"⟩,
     ⟨.EOF, "", none, 1, 2, "f"⟩]
    (by decide) _ (by decide)

/-- Claim C5: every scanned occurrence of the word `true`/`false` yields a
`BOOL_LITERAL` token whose literal is the corresponding boolean, and the
generic `TRUE`/`FALSE` keyword kinds are never emitted. -/
theorem claim5_bool_literals (src fid : String) (toks : List Token)
    (h : scan src fid = .ok toks) :
    ∀ t ∈ toks,
      (t.value = "true" → t.type = .BOOL_LITERAL ∧ t.literal = some (.bool true)) ∧
      (t.value = "false" → t.type = .BOOL_LITERAL ∧ t.literal = some (.bool false)) ∧
      t.type ≠ .TRUE ∧ t.type ≠ .FALSE := by
  obtain ⟨ps, hps, rfl⟩ := scan_spec h
  have spec := (scanAux_spec fid _ _ _ _ _ _ hps).2.2.2.2.1
  intro t ht
  obtain ⟨-, -, neT, neF, impT, impF, -⟩ := spec t ht
  exact ⟨impT, impF, neT, neF⟩

/-- Witness for C5 at the `true` token of the scan of `"true false"`. -/
theorem claim5_witness :
    ((⟨.BOOL_LITERAL, "true", some (.bool true), 1, 1, "f"⟩ : Token).value = "true" →
      (⟨.BOOL_LITERAL, "true", some (.bool true), 1, 1, "f"⟩ : Token).type = .BOOL_LITERAL ∧
      (⟨.BOOL_LITERAL, "true", some (.bool true), 1, 1, "f"⟩ : Token).literal =
        some (.bool true)) ∧
    ((⟨.BOOL_LITERAL, "true", some (.bool true), 1, 1, "f"⟩ : Token).value = "false" →
      (⟨.BOOL_LITERAL, "true", some (.bool true), 1, 1, "f"⟩ : Token).type = .BOOL_LITERAL ∧
      (⟨.BOOL_LITERAL, "true", some (.bool true), 1, 1, "f"⟩ : Token).literal =
        some (.bool false)) ∧
    (⟨.BOOL_LITERAL, "true", some (.bool true), 1, 1, "f"⟩ : Token).type ≠ .TRUE ∧
    (⟨.BOOL_LITERAL, "true", some (.bool true), 1, 1, "f"⟩ : Token).type ≠ .FALSE :=
  claim5_bool_literals "true false" "f"
    [⟨.BOOL_LITERAL, "true", some (.bool true), 1, 1, "f"⟩,
     ⟨.BOOL_LITERAL, "false", some (.bool false), 1, 6, "f"⟩,
     ⟨.EOL, "", none, 1, 11, "f"⟩, ⟨.EOF, "", none, 1, 11, "f"⟩]
    (by decide) _ (by decide)

/-- Claim C6: whenever `scan` succeeds it returns a non-empty token sequence
ending with exactly one `EOF` token, and `EOF` appears nowhere else in the
sequence. -/
theorem claim6_eof_terminated (src fid : String) (toks : List Token)
    (h : scan src fid = .ok toks) :
    toks ≠ [] ∧ ∃ ts lastTok, toks = ts ++ [lastTok] ∧ lastTok.type = .EOF ∧
      ∀ t ∈ ts, t.type ≠ .EOF := by
  obtain ⟨ps, hps, rfl⟩ := scan_spec h
  obtain ⟨ts, lastTok, hshape, hE, -, hno⟩ := (scanAux_spec fid _ _ _ _ _ _ hps).2.2.2.2.2
  refine ⟨?_, ts, lastTok, hshape, hE, hno⟩
  rw [hshape]
  simp

/-- Witness for C6 at the concrete input `"x"`: the result is non-empty. -/
theorem claim6_witness :
    [(⟨.IDENTIFIER, "x", none, 1, 1, "f"⟩ : Token), ⟨.EOL, "", none, 1, 2, "f"⟩,
      ⟨.EOF, "", none, 1, 2, "f"⟩] ≠ [] :=
  (claim6_eof_terminated "x" "f"
    [⟨.IDENTIFIER, "x", none, 1, 1, "f"⟩, ⟨.EOL, "", none, 1, 2, "f"⟩,
     ⟨.EOF, "", none, 1, 2, "f"⟩]
    (by decide)).1

/-- Claim C7: across the token sequence `scan` produces for one file, the
`(line, column)` position of each later token is lexicographically greater
than or equal to that of the earlier token. -/
theorem claim7_positions_monotone (src fid : String) (toks : List Token)
    (h : scan src fid = .ok toks) :
    List.Chain' (fun a b => posLe (a.line, a.column) (b.line, b.column)) toks := by
  obtain ⟨ps, hps, rfl⟩ := scan_spec h
  exact (scanAux_spec fid _ _ _ _ _ _ hps).2.2.1

/-- Witness for C7 at the concrete two-line input `"a\nb"`. -/
theorem claim7_witness :
    List.Chain' (fun a b => posLe (a.line, a.column) (b.line, b.column))
      [(⟨.IDENTIFIER, "a", none, 1, 1, "f"⟩ : Token), ⟨.EOL, "\n", none, 1, 2, "f"⟩,
       ⟨.IDENTIFIER, "b", none, 2, 1, "f"⟩, ⟨.EOL, "", none, 2, 2, "f"⟩,
       ⟨.EOF, "", none, 2, 2, "f"⟩] :=
  claim7_positions_monotone "a\nb" "f" _ (by decide)

/-- Claim C8: round-trip — concatenating, in consumption order, the text of
every token except the synthetic `EOF` together with the skipped whitespace
reconstructs the original source exactly; `scan`'s token sequence is the
token part of that same decomposition. -/
theorem claim8_round_trip (src fid : String) (ps : List Piece)
    (h : scanPieces src fid = .ok ps) :
    reconstruct ps = src ∧ scan src fid = .ok (pieceTokens ps) := by
  have spec := scanAux_spec fid _ _ _ _ _ _ h
  constructor
  · apply String.ext
    rw [reconstruct_data ps (fun t ht => (spec.2.2.2.2.1 t ht).2.2.2.2.2.2)]
    exact spec.1
  · unfold scan
    rw [h]
    rfl

/-- Witness for C8 at the concrete input `"a b"`. -/
theorem claim8_witness :
    reconstruct
      [.tok ⟨.IDENTIFIER, "a", none, 1, 1, "f"⟩, .ws " ",
       .tok ⟨.IDENTIFIER, "b", none, 1, 3, "f"⟩, .tok ⟨.EOL, "", none, 1, 4, "f"⟩,
       .tok ⟨.EOF, "", none, 1, 4, "f"⟩] = "a b" ∧
    scan "a b" "f" = .ok (pieceTokens
      [.tok ⟨.IDENTIFIER, "a", none, 1, 1, "f"⟩, .ws " ",
       .tok ⟨.IDENTIFIER, "b", none, 1, 3, "f"⟩, .tok ⟨.EOL, "", none, 1, 4, "f"⟩,
       .tok ⟨.EOF, "", none, 1, 4, "f"⟩]) :=
  claim8_round_trip "a b" "f" _ (by decide)

/-- Claim C9: `"=="` scans as one `EQUAL_EQUAL` token and never as two
`EQUAL` tokens, and a lone `"!"` fails with `UnexpectedCharacter` carrying
the character, line, column and file, since the language has no bare NOT
operator symbol. -/
theorem claim9_greedy_operators :
    scan "==" "f" = .ok [⟨.EQUAL_EQUAL, "==", none, 1, 1, "f"⟩, ⟨.EOL, "", none, 1, 3, "f"⟩,
      ⟨.EOF, "", none, 1, 3, "f"⟩] ∧
    (([(⟨.EQUAL_EQUAL, "==", none, 1, 1, "f"⟩ : Token), ⟨.EOL, "", none, 1, 3, "f"⟩,
      ⟨.EOF, "", none, 1, 3, "f"⟩].countP (fun t => decide (t.type = .EQUAL_EQUAL))) = 1) ∧
    (([(⟨.EQUAL_EQUAL, "==", none, 1, 1, "f"⟩ : Token), ⟨.EOL, "", none, 1, 3, "f"⟩,
      ⟨.EOF, "", none, 1, 3, "f"⟩].countP (fun t => decide (t.type = .EQUAL))) = 0) ∧
    scan "!" "f" = .error (.UnexpectedCharacter '!' 1 1 "f") := by
  refine ⟨by decide, by decide, by decide, by decide⟩

/-- Claim C10: `Token.__init__` always succeeds for arbitrary argument values
and stores its six arguments unchanged into the corresponding fields,
performing no validation: any kind may be paired with any literal, any
position and any file identifier. -/
theorem claim10_constructor_no_validation :
    ∀ (k : TokenType) (v : String) (lit : Option LitValue) (ln c : Nat) (f : String),
      (Token.mk k v lit ln c f).type = k ∧ (Token.mk k v lit ln c f).value = v ∧
      (Token.mk k v lit ln c f).literal = lit ∧ (Token.mk k v lit ln c f).line = ln ∧
      (Token.mk k v lit ln c f).column = c ∧ (Token.mk k v lit ln c f).file = f :=
  fun _ _ _ _ _ _ => ⟨rfl, rfl, rfl, rfl, rfl, rfl⟩

end Tokens
